import Mathlib

/-!
# Verification of the zen-vim editing core

A shallow embedding of the editing core of the repository (files
`src/core/buffer.rs`, `src/core/cursor.rs`, `src/modes/mod.rs`) together
with theorems settling the frozen claims about it.

Modelling conventions:
* A line is a `List Char` (Rust `String`, viewed as its sequence of Unicode
  scalar values); buffer content is a `List (List Char)` (Rust `Vec<String>`).
* Undo/redo stacks are Lean lists with the TOP of the stack at the HEAD
  (the Rust `Vec` keeps the top at the end): Rust `push` is `cons`,
  Rust `pop` takes the head, Rust `remove(0)` (evicting the oldest
  element) is `dropLast`.
* Byte-level behaviour of Rust string slicing (which panics at an index
  that is not a UTF-8 character boundary) is modelled explicitly where the
  source manipulates byte indices: a function that can panic returns an
  `Option`, with `none` denoting the panic.
* `char::is_alphanumeric` / `char::is_whitespace` are modelled by
  `Char.isAlphanum` / `Char.isWhitespace`; they agree with the Rust
  classifiers on the ASCII range, which covers every character class
  distinction the claims exercise (in particular `'_'` is not
  alphanumeric in either).
-/

/-- A line of text: the sequence of Unicode scalar values of a Rust `String`. -/
abbrev Line := List Char

/-- Buffer content: Rust `Vec<String>`. -/
abbrev Content := List Line

namespace ZenVim

/-- `Position` from `src/core/cursor.rs`: row and column, the column counted
in codepoints. -/
structure Position where
  row : Nat
  col : Nat
deriving DecidableEq, Repr

/-- `Cursor` from `src/core/cursor.rs`: a position plus the sticky
`desired_col` used by vertical motion. -/
structure Cursor where
  position : Position
  desired_col : Nat
deriving DecidableEq, Repr

namespace Cursor

/-- `Cursor::new`. -/
def new : Cursor := ⟨⟨0, 0⟩, 0⟩

/-- `Cursor::move_to_position`. -/
def move_to_position (_c : Cursor) (pos : Position) : Cursor :=
  ⟨pos, pos.col⟩

/-- `Cursor::move_to_column`. -/
def move_to_column (c : Cursor) (col : Nat) : Cursor :=
  ⟨⟨c.position.row, col⟩, col⟩

/-- Length in codepoints of the line at `row`
(`content.get(row).map(|s| s.chars().count()).unwrap_or(0)`). -/
def lineLen (content : Content) (row : Nat) : Nat :=
  (content.getD row []).length

/-- `Cursor::move_left`. -/
def move_left (c : Cursor) (content : Content) : Cursor :=
  if c.position.col > 0 then
    ⟨⟨c.position.row, c.position.col - 1⟩, c.position.col - 1⟩
  else if c.position.row > 0 then
    let col := lineLen content (c.position.row - 1)
    ⟨⟨c.position.row - 1, col⟩, col⟩
  else c

/-- `Cursor::move_right`. -/
def move_right (c : Cursor) (content : Content) : Cursor :=
  match content.get? c.position.row with
  | none => c
  | some line =>
    if c.position.col < line.length then
      ⟨⟨c.position.row, c.position.col + 1⟩, c.position.col + 1⟩
    else if c.position.row + 1 < content.length then
      ⟨⟨c.position.row + 1, 0⟩, 0⟩
    else c

/-- `Cursor::clamp_column`: clamp `desired_col` to the length of the line at
the cursor's (already updated) row. -/
def clamp_column (content : Content) (row : Nat) (desired_col : Nat) : Nat :=
  match content.get? row with
  | some line => min desired_col line.length
  | none => 0

/-- `Cursor::move_up`: row decreases by one when possible; the column is
clamped to the target line, `desired_col` untouched. -/
def move_up (c : Cursor) (content : Content) : Cursor :=
  if c.position.row > 0 then
    ⟨⟨c.position.row - 1, clamp_column content (c.position.row - 1) c.desired_col⟩,
      c.desired_col⟩
  else c

/-- `Cursor::move_down`. -/
def move_down (c : Cursor) (content : Content) : Cursor :=
  if c.position.row + 1 < content.length then
    ⟨⟨c.position.row + 1, clamp_column content (c.position.row + 1) c.desired_col⟩,
      c.desired_col⟩
  else c

end Cursor

/-- Number of leading characters of `l` satisfying `p` — the final value of
the loop counter of a Rust `while pos < chars.len() && p(chars[pos])` loop
started at the front of `l`. -/
def countWhile (p : Char → Bool) (l : List Char) : Nat :=
  (l.takeWhile p).length

namespace Cursor

/-- `Cursor::move_word_forward` from `src/core/cursor.rs` (lines 78–121);
the three `while` loops are rendered with `countWhile` over the suffix of
the line starting at the loop's initial index. -/
def move_word_forward (c : Cursor) (content : Content) : Cursor :=
  match content.get? c.position.row with
  | none => c
  | some chars =>
    if chars.isEmpty ∨ c.position.col ≥ chars.length then
      if c.position.row + 1 < content.length then
        ⟨⟨c.position.row + 1, 0⟩, 0⟩
      else c
    else
      let pos0 := c.position.col
      let pos1 :=
        if (chars.getD pos0 ' ').isAlphanum then
          pos0 + countWhile (fun ch => ch.isAlphanum) (chars.drop pos0)
        else if ¬ (chars.getD pos0 ' ').isWhitespace then
          pos0 + countWhile (fun ch => ¬ ch.isAlphanum ∧ ¬ ch.isWhitespace)
            (chars.drop pos0)
        else pos0
      let pos2 := pos1 + countWhile (fun ch => ch.isWhitespace) (chars.drop pos1)
      if pos2 < chars.length then
        ⟨⟨c.position.row, pos2⟩, pos2⟩
      else if c.position.row + 1 < content.length then
        ⟨⟨c.position.row + 1, 0⟩, 0⟩
      else c

end Cursor

/-- `Buffer` from `src/core/buffer.rs`.  The undo/redo stacks keep their top
at the head of the Lean list (see the module docstring). -/
structure Buffer where
  id : Nat
  content : Content
  cursor : Cursor
  modified : Bool
  undo_stack : List Content
  redo_stack : List Content
deriving DecidableEq

namespace Buffer

/-- `Buffer::new` (path/name metadata omitted — no claim mentions them). -/
def new (id : Nat) : Buffer :=
  ⟨id, [[]], Cursor.new, false, [], []⟩

/-- `Buffer::push_undo`: evict the OLDEST snapshot (`remove(0)`, here
`dropLast`) when the stack holds more than 100 entries, then push the
current content and clear the redo stack. -/
def push_undo (b : Buffer) : Buffer :=
  let us := if b.undo_stack.length > 100 then b.undo_stack.dropLast else b.undo_stack
  { b with undo_stack := b.content :: us, redo_stack := [] }

/-- `Buffer::insert_char`: insert at the cursor's codepoint offset
(`char_indices().nth(col)`, falling back to the end of the line), then
`move_right`.  The snapshot is pushed before the bounds check. -/
def insert_char (b : Buffer) (ch : Char) : Buffer :=
  let b := push_undo b
  let pos := b.cursor.position
  if pos.row < b.content.length then
    let line := b.content.getD pos.row []
    let line' := line.take pos.col ++ ch :: line.drop pos.col
    let content' := b.content.set pos.row line'
    { b with content := content',
             cursor := b.cursor.move_right content',
             modified := true }
  else b

/-- `Buffer::insert_newline`: split the current line at the cursor. -/
def insert_newline (b : Buffer) : Buffer :=
  let b := push_undo b
  let pos := b.cursor.position
  if pos.row < b.content.length then
    let line := b.content.getD pos.row []
    let content' := (b.content.set pos.row (line.take pos.col)).insertIdx
      (pos.row + 1) (line.drop pos.col)
    let cur := (b.cursor.move_down content').move_to_column 0
    { b with content := content', cursor := cur, modified := true }
  else b

/-- `Buffer::backspace`.  When `pos.col > 0`, or when merging with the
previous line, the source indexes `content[pos.row]` / calls
`content.remove(pos.row)` WITHOUT a bounds check: Rust panics whenever
`pos.row ≥ content.len()` (a state `undo` can produce).  This total model
renders those aborting executions as content-preserving no-ops via
`getD`/`eraseIdx`; statements about completed executions must therefore
restrict to calls satisfying `edit_safe` (defined below). -/
def backspace (b : Buffer) : Buffer :=
  let b := push_undo b
  let pos := b.cursor.position
  if pos.col > 0 then
    let line := b.content.getD pos.row []
    if pos.col - 1 < line.length then
      let line' := line.take (pos.col - 1) ++ line.drop pos.col
      let content' := b.content.set pos.row line'
      { b with content := content',
               cursor := b.cursor.move_left content',
               modified := true }
    else b
  else if pos.row > 0 then
    let current_line := b.content.getD pos.row []
    let content₁ := b.content.eraseIdx pos.row
    let prev_line_len := (content₁.getD (pos.row - 1) []).length
    let content' := content₁.set (pos.row - 1)
      ((content₁.getD (pos.row - 1) []) ++ current_line)
    let cur := (b.cursor.move_up content').move_to_column prev_line_len
    { b with content := content', cursor := cur, modified := true }
  else b

/-- `Buffer::delete_char`: delete the codepoint under the cursor, or merge
the next line when the cursor is at end-of-line. -/
def delete_char (b : Buffer) : Buffer :=
  let b := push_undo b
  let pos := b.cursor.position
  if pos.row < b.content.length then
    let line := b.content.getD pos.row []
    if pos.col < line.length then
      let line' := line.take pos.col ++ line.drop (pos.col + 1)
      { b with content := b.content.set pos.row line', modified := true }
    else if pos.row + 1 < b.content.length then
      let next_line := b.content.getD (pos.row + 1) []
      let content' := (b.content.set pos.row (line ++ next_line)).eraseIdx (pos.row + 1)
      { b with content := content', modified := true }
    else b
  else b

/-- `Buffer::delete_line`.  When more than one line exists the source calls
`content.remove(pos.row)` without a bounds check: Rust panics whenever
`pos.row ≥ content.len()` (a state `undo` can produce).  As with
`backspace`, the total model turns that abort into a no-op (`eraseIdx` out
of range), and completed-execution statements restrict to `edit_safe`
calls. -/
def delete_line (b : Buffer) : Buffer :=
  let b := push_undo b
  let pos := b.cursor.position
  if b.content ≠ [] then
    if b.content.length = 1 then
      { b with content := b.content.set 0 [],
               cursor := b.cursor.move_to_column 0, modified := true }
    else
      let content' := b.content.eraseIdx pos.row
      let cur := if pos.row ≥ content'.length ∧ pos.row > 0 then
          b.cursor.move_up content'
        else b.cursor
      { b with content := content',
               cursor := cur.move_to_column 0, modified := true }
  else b

/-- `Buffer::undo`: pop a snapshot, push the current content on the redo
stack; the cursor is NOT adjusted. -/
def undo (b : Buffer) : Buffer :=
  match b.undo_stack with
  | [] => b
  | prev :: rest =>
    { b with content := prev, undo_stack := rest,
             redo_stack := b.content :: b.redo_stack, modified := true }

/-- `Buffer::redo`: pop from the redo stack, push the current content on the
undo stack (with no depth check). -/
def redo (b : Buffer) : Buffer :=
  match b.redo_stack with
  | [] => b
  | next :: rest =>
    { b with content := next, redo_stack := rest,
             undo_stack := b.content :: b.undo_stack, modified := true }

end Buffer

/-! ## UTF-8 byte-level modelling (for the search routines)

`ModeManager::search_in_buffer` mixes codepoint columns with byte indices:
it slices a line at `cursor.col + 1` interpreted as a byte offset.  Rust
string slicing panics when the offset is not a character boundary, so the
byte structure must be modelled. -/

/-- Number of bytes of the UTF-8 encoding of a scalar value
(1 for `< 0x80`, 2 for `< 0x800`, 3 for `< 0x10000`, else 4). -/
def charUtf8Size (c : Char) : Nat :=
  if c.val < 0x80 then 1
  else if c.val < 0x800 then 2
  else if c.val < 0x10000 then 3
  else 4

/-- Byte length of a line (`String::len` in Rust). -/
def byteLen (l : Line) : Nat := (l.map charUtf8Size).sum

/-- Drop the first `k` BYTES of a line (`&line[k..]`).  Returns `none` —
a Rust panic — when `k` is not a character boundary or exceeds the byte
length. -/
def byteDrop (l : Line) (k : Nat) : Option Line :=
  match l, k with
  | l, 0 => some l
  | [], _ + 1 => none
  | c :: rest, k + 1 =>
    if charUtf8Size c ≤ k + 1 then byteDrop rest (k + 1 - charUtf8Size c)
    else none

/-- `str::find` for a plain-substring pattern: BYTE offset of the first
occurrence of `pat` in `hay` (matches of valid UTF-8 inside valid UTF-8
start only at character boundaries, so scanning codepoint-wise is exact). -/
def findSubBytes (hay pat : Line) : Option Nat :=
  if pat.isPrefixOf hay then some 0
  else
    match hay with
    | [] => none
    | c :: t => (findSubBytes t pat).map (charUtf8Size c + ·)

/-- Character-index variant of substring search (used to state what the
byte search does on ASCII lines). -/
def findSubChars (hay pat : Line) : Option Nat :=
  if pat.isPrefixOf hay then some 0
  else
    match hay with
    | [] => none
    | _ :: t => (findSubChars t pat).map (· + 1)

/-- First loop of `ModeManager::search_in_buffer`: scan `lines` (the rows
of the buffer from `startRow` on, `rowIdx` starting at `startRow`); on the
start row begin at byte offset `startCol` (clamped to the byte length
before slicing, but NOT clamped when reporting the hit column).  The outer
`none` is a Rust panic from slicing at a non-boundary. -/
def searchFromRow (pat : Line) : List Line → Nat → Nat → Nat →
    Option (Option Position)
  | [], _, _, _ => some none
  | line :: rest, rowIdx, startRow, startCol =>
    let ss := if rowIdx = startRow then startCol else 0
    match byteDrop line (min ss (byteLen line)) with
    | none => none
    | some sliced =>
      match findSubBytes sliced pat with
      | some p => some (some ⟨rowIdx, ss + p⟩)
      | none => searchFromRow pat rest (rowIdx + 1) startRow startCol

/-- Second (wrap-around) loop of `ModeManager::search_in_buffer`: scan the
rows before `startRow` from the top, whole lines. -/
def searchWrapRows (pat : Line) : List Line → Nat → Nat → Option Position
  | [], _, _ => none
  | line :: rest, rowIdx, startRow =>
    if rowIdx ≥ startRow then none
    else
      match findSubBytes line pat with
      | some p => some ⟨rowIdx, p⟩
      | none => searchWrapRows pat rest (rowIdx + 1) startRow

/-- `ModeManager::search_in_buffer` acting on the current buffer
(`src/modes/mod.rs`, lines 334–373); the start row is the cursor row and
the start column is one past the cursor column.  `none` is a Rust panic. -/
def search_in_buffer (pat : Line) (b : Buffer) : Option Buffer :=
  match searchFromRow pat (b.content.drop b.cursor.position.row) b.cursor.position.row
      b.cursor.position.row (b.cursor.position.col + 1) with
  | none => none
  | some (some p) => some { b with cursor := b.cursor.move_to_position p }
  | some none =>
    match searchWrapRows pat b.content 0 b.cursor.position.row with
    | some p => some { b with cursor := b.cursor.move_to_position p }
    | none => some b

/-! ## File persistence (for the save/open round trip)

`Buffer::save_as` writes `content.join("\n")`; `Buffer::from_file` on an
existing path reads the text back and collects `str::lines()`.  Both are
pure functions of the text, modelled here; the filesystem is the identity
on the written bytes. -/

/-- `Vec<String>::join("\n")` on the line list. -/
def joinLines : Content → Line
  | [] => []
  | [l] => l
  | l :: rest => l ++ '\n' :: joinLines rest

/-- `str::split_inclusive('\n')`: segments each ending in `'\n'` except
possibly the last; the empty string yields no segments. -/
def splitInclusiveNL : Line → List Line
  | [] => []
  | c :: rest =>
    if c = '\n' then ['\n'] :: splitInclusiveNL rest
    else
      match splitInclusiveNL rest with
      | [] => [[c]]
      | seg :: segs => (c :: seg) :: segs

/-- The per-segment map of `str::lines`: strip one trailing `'\n'`, and a
trailing `'\r'` only when a `'\n'` was stripped. -/
def stripLineEnding (seg : Line) : Line :=
  if seg.getLast? = some '\n' then
    let s := seg.dropLast
    if s.getLast? = some '\r' then s.dropLast else s
  else seg

/-- `str::lines().collect::<Vec<String>>()`. -/
def rustLines (s : Line) : Content :=
  (splitInclusiveNL s).map stripLineEnding

/-- The content produced by `save_as(p)` followed by `open_file(p)`
(`Buffer::from_file` on the now-existing path `p`). -/
def saveOpenRoundTrip (content : Content) : Content :=
  rustLines (joinLines content)

/-! ## BufferManager (for close semantics) -/

/-- Error kinds of the manager operations the claims mention. -/
inductive BufError where
  | unsavedChanges
deriving DecidableEq, Repr

/-- `BufferManager` from `src/core/buffer.rs`.  The `HashMap<usize, Buffer>`
is modelled as an association list; `keys().next()` (an arbitrary element
of the map's iteration order) is modelled by the head of the list. -/
structure BufferManager where
  buffers : List (Nat × Buffer)
  current_buffer_id : Option Nat
  next_id : Nat

namespace BufferManager

/-- `HashMap::get`. -/
def lookup (m : BufferManager) (id : Nat) : Option Buffer :=
  (m.buffers.find? (fun p => p.1 = id)).map (·.2)

/-- `BufferManager::close_buffer`: refuse (returning the error and leaving
the manager untouched) when the target buffer is modified; otherwise remove
it and, if it was current, select `keys().next()` of the remainder. -/
def close_buffer (m : BufferManager) (id : Nat) : BufferManager × Option BufError :=
  match m.lookup id with
  | some buf =>
    if buf.modified then (m, some .unsavedChanges)
    else
      let bufs := m.buffers.filter (fun p => ¬ p.1 = id)
      let cur := if m.current_buffer_id = some id then bufs.head?.map (·.1)
        else m.current_buffer_id
      (⟨bufs, cur, m.next_id⟩, none)
  | none =>
    let bufs := m.buffers.filter (fun p => ¬ p.1 = id)
    let cur := if m.current_buffer_id = some id then bufs.head?.map (·.1)
      else m.current_buffer_id
    (⟨bufs, cur, m.next_id⟩, none)

end BufferManager

/-! ## Edit sequences (for the undo/redo laws) -/

/-- The five content mutators of `Buffer`. -/
inductive EditOp where
  | insertChar (ch : Char)
  | insertNewline
  | backspace
  | deleteChar
  | deleteLine
deriving DecidableEq, Repr

/-- Apply one mutator. -/
def applyEdit (op : EditOp) (b : Buffer) : Buffer :=
  match op with
  | .insertChar ch => b.insert_char ch
  | .insertNewline => b.insert_newline
  | .backspace => b.backspace
  | .deleteChar => b.delete_char
  | .deleteLine => b.delete_line

/-- Apply a sequence of mutators, first element first. -/
def applyEdits (ops : List EditOp) (b : Buffer) : Buffer :=
  match ops with
  | [] => b
  | op :: rest => applyEdits rest (applyEdit op b)

/-- `edit_safe op b` holds exactly when executing the mutator `op` on `b`
does not hit a Rust panic: `insert_char`, `insert_newline` and
`delete_char` guard every index with an explicit bounds check and are
always safe, while `backspace` (except in its (0,0) no-op case) and
`delete_line` (once more than one line exists) index
`content[cursor.row]` unguarded and abort when the row is out of range. -/
def edit_safe (op : EditOp) (b : Buffer) : Bool :=
  match op with
  | .insertChar _ => true
  | .insertNewline => true
  | .deleteChar => true
  | .backspace =>
    (b.cursor.position.col = 0 ∧ b.cursor.position.row = 0) ∨
      b.cursor.position.row < b.content.length
  | .deleteLine =>
    b.content.isEmpty ∨ b.content.length = 1 ∨
      b.cursor.position.row < b.content.length

/-- A whole edit sequence executes without panicking: each call is
`edit_safe` in the state the previous calls produced (on safe prefixes the
total model agrees with the Rust execution state, so this is exactly
panic-freedom of the real run). -/
def edits_safe : List EditOp → Buffer → Bool
  | [], _ => true
  | op :: rest, b => edit_safe op b ∧ edits_safe rest (applyEdit op b)

/-- `n` successive `undo` calls. -/
def undoN : Nat → Buffer → Buffer
  | 0, b => b
  | n + 1, b => undoN n b.undo

/-- `n` successive `redo` calls. -/
def redoN : Nat → Buffer → Buffer
  | 0, b => b
  | n + 1, b => redoN n b.redo

/-! ## Spec-side description of forward word motion

The specification describes `move_word_forward` as: classify the character
under the cursor; skip to the end of its run (unless on whitespace); skip
whitespace; land on the first character of the next run, crossing to column
0 of the next line when the end of the line is reached.  The word class is
a parameter so that the spec's classification (alphanumeric-or-underscore)
and the code's (alphanumeric only) can both be instantiated. -/

/-- The staged run-skipping description of forward word motion from the
spec, parametrised by the word-character class. -/
def specWordForward (isWord : Char → Bool) (content : Content) (c : Cursor) : Cursor :=
  match content.get? c.position.row with
  | none => c
  | some chars =>
    if chars.isEmpty ∨ c.position.col ≥ chars.length then
      if c.position.row + 1 < content.length then ⟨⟨c.position.row + 1, 0⟩, 0⟩ else c
    else
      let col := c.position.col
      let ch := chars.getD col ' '
      let afterRun :=
        if ch.isWhitespace then col
        else if isWord ch then col + countWhile (fun x => isWord x) (chars.drop col)
        else col + countWhile (fun x => ¬ isWord x ∧ ¬ x.isWhitespace) (chars.drop col)
      let landing := afterRun + countWhile (fun x => x.isWhitespace) (chars.drop afterRun)
      if landing < chars.length then ⟨⟨c.position.row, landing⟩, landing⟩
      else if c.position.row + 1 < content.length then ⟨⟨c.position.row + 1, 0⟩, 0⟩
      else c

/-- The spec's word-character class: alphanumeric or underscore. -/
def specIsWordChar (c : Char) : Bool := c.isAlphanum || c = '_'

/-! ## Helper lemmas -/

/-- An alphanumeric character is never whitespace. -/
lemma isAlphanum_not_isWhitespace (c : Char) (h : c.isAlphanum = true) :
    c.isWhitespace = false := by
  by_contra hw
  rw [Bool.not_eq_false] at hw
  simp only [Char.isWhitespace, Bool.or_eq_true, decide_eq_true_eq] at hw
  rcases hw with ((h1 | h1) | h1) | h1 <;> subst h1 <;> exact absurd h (by decide)

/-! ## C1 — buffer invariants after every operation -/

/-- C1: the invariants do NOT survive `undo`.  On a fresh buffer (content
`[""]`, cursor (0,0)) the operation `insert_newline` followed by `undo`
leaves the cursor at row 1 while the content has a single line, violating
`cursor.position.row < content.length`.  (`Buffer::undo` restores the
content snapshot without clamping the cursor.) -/
theorem claim1_undo_breaks_cursor_invariant :
    (((Buffer.new 1).insert_newline).undo).content.length = 1 ∧
    (((Buffer.new 1).insert_newline).undo).cursor.position.row = 1 ∧
    ¬ ((((Buffer.new 1).insert_newline).undo).cursor.position.row <
        (((Buffer.new 1).insert_newline).undo).content.length) := by
  decide

/-! ## C2 — no panic on any reachable input -/

/-- C2: the forward search CAN panic.  On the buffer with the single line
`"éx"` and the invariant-satisfying cursor (0,0), searching for `"x"`
slices the line at byte index `col + 1 = 1`, inside the two-byte UTF-8
encoding of `'é'` — a Rust panic, modelled as `none`.  The pattern does
occur in the buffer (at codepoint column 1). -/
theorem claim2_search_panics_on_multibyte :
    search_in_buffer ['x'] ⟨1, [['é', 'x']], Cursor.new, false, [], []⟩ = none ∧
    Cursor.new.position.col ≤ ([['é', 'x']].getD 0 []).length ∧
    Cursor.new.position.row < [['é', 'x']].length ∧
    List.isPrefixOf ['x'] (([['é', 'x']].getD 0 []).drop 1) = true := by
  decide

/-! ## C7 — forward word motion -/

/-- C7 counterexample: on the line `"a_b c"` with the cursor at (0,0), the
code stops at column 1 (the underscore: `char::is_alphanumeric` does not
include `'_'`), while the claim's classification (underscore counts as a
word character) lands at column 4. -/
theorem claim7_counterexample :
    Cursor.new.move_word_forward [['a', '_', 'b', ' ', 'c']] = ⟨⟨0, 1⟩, 1⟩ ∧
    specWordForward specIsWordChar [['a', '_', 'b', ' ', 'c']] Cursor.new = ⟨⟨0, 4⟩, 4⟩ ∧
    (⟨⟨0, 1⟩, 1⟩ : Cursor) ≠ ⟨⟨0, 4⟩, 4⟩ := by
  decide

/-- C7 (amended): `move_word_forward` realises the staged run-skipping
description with the word class "alphanumeric" (underscore is in the
punctuation class), and on `["hello world"]` from (0,0) it lands at (0,6). -/
theorem claim7_word_forward_classification :
    (∀ (content : Content) (c : Cursor),
      c.move_word_forward content = specWordForward Char.isAlphanum content c) ∧
    Cursor.new.move_word_forward [['h', 'e', 'l', 'l', 'o', ' ', 'w', 'o', 'r', 'l', 'd']]
      = ⟨⟨0, 6⟩, 6⟩ := by
  constructor
  · intro content c
    unfold Cursor.move_word_forward specWordForward
    cases h : content.get? c.position.row with
    | none => rfl
    | some chars =>
      by_cases hA : (chars[c.position.col]?.getD ' ').isAlphanum
      · simp [hA, isAlphanum_not_isWhitespace _ hA]
      · by_cases hW : (chars[c.position.col]?.getD ' ').isWhitespace
        · simp [hA, hW]
        · simp [hA, hW]
  · decide

/-! ## C6 — closing a buffer -/

/-- C6: `close_buffer` on a modified buffer returns `UnsavedChanges` and
leaves the manager untouched; on an unmodified buffer it removes exactly
that buffer and, when the removed buffer was current, selects some
remaining id (or none when the registry became empty) while an unrelated
current selection is preserved. -/
theorem claim6_close_buffer (m : BufferManager) (id : Nat) (buf : Buffer)
    (h : m.lookup id = some buf) :
    (buf.modified = true → m.close_buffer id = (m, some .unsavedChanges)) ∧
    (buf.modified = false →
      (m.close_buffer id).2 = none ∧
      (m.close_buffer id).1.buffers = m.buffers.filter (fun p => ¬ p.1 = id) ∧
      ((m.close_buffer id).1).lookup id = none ∧
      (m.current_buffer_id = some id →
        ((m.close_buffer id).1.buffers = [] ∧
          (m.close_buffer id).1.current_buffer_id = none) ∨
        (∃ j, (m.close_buffer id).1.current_buffer_id = some j ∧
          (((m.close_buffer id).1).lookup j).isSome = true)) ∧
      (m.current_buffer_id ≠ some id →
        (m.close_buffer id).1.current_buffer_id = m.current_buffer_id)) := by
  constructor
  · intro hmod
    unfold BufferManager.close_buffer
    rw [h]
    simp [hmod]
  · intro hmod
    have hclose : m.close_buffer id =
        (⟨m.buffers.filter (fun p => ¬ p.1 = id),
          if m.current_buffer_id = some id then
            (m.buffers.filter (fun p => ¬ p.1 = id)).head?.map (·.1)
          else m.current_buffer_id,
          m.next_id⟩, none) := by
      unfold BufferManager.close_buffer
      rw [h]
      simp [hmod]
    rw [hclose]
    refine ⟨rfl, rfl, ?_, ?_, ?_⟩
    · unfold BufferManager.lookup
      rw [Option.map_eq_none', List.find?_eq_none]
      intro p hp
      have := (List.mem_filter.mp hp).2
      simpa using this
    · intro hcur
      simp only [hcur, if_pos]
      cases hb : (m.buffers.filter (fun p => ¬ p.1 = id)) with
      | nil => exact Or.inl ⟨rfl, by simp⟩
      | cons p t =>
        refine Or.inr ⟨p.1, by simp, ?_⟩
        unfold BufferManager.lookup
        simp [hb, List.find?_cons]
    · intro hcur
      simp [hcur]

/-- C6 witness: a manager holding exactly one buffer, id 1, with
`modified = true`; closing it returns `UnsavedChanges` and leaves the
manager unchanged. -/
theorem claim6_close_buffer_witness :
    BufferManager.close_buffer
      ⟨[(1, { Buffer.new 1 with modified := true })], some 1, 2⟩ 1
      = (⟨[(1, { Buffer.new 1 with modified := true })], some 1, 2⟩,
          some .unsavedChanges) :=
  (claim6_close_buffer ⟨[(1, { Buffer.new 1 with modified := true })], some 1, 2⟩
    1 { Buffer.new 1 with modified := true } rfl).1 rfl

/-! ## C5 — save/open round trip -/

/-- `splitInclusiveNL` of a newline-free nonempty line is that line. -/
lemma splitInclusiveNL_no_nl (l : Line) (h : '\n' ∉ l) (hne : l ≠ []) :
    splitInclusiveNL l = [l] := by
  induction l with
  | nil => exact absurd rfl hne
  | cons c rest ih =>
    have hc : ¬ c = '\n' := fun e => h (by simp [e])
    show splitInclusiveNL (c :: rest) = [c :: rest]
    unfold splitInclusiveNL
    rw [if_neg hc]
    rcases eq_or_ne rest [] with hr | hr
    · subst hr; rfl
    · rw [ih (fun hm => h (by simp [hm])) hr]

/-- `splitInclusiveNL` splits off a newline-free first line. -/
lemma splitInclusiveNL_append (l t : Line) (h : '\n' ∉ l) :
    splitInclusiveNL (l ++ '\n' :: t) = (l ++ ['\n']) :: splitInclusiveNL t := by
  induction l with
  | nil => rfl
  | cons c rest ih =>
    have hc : ¬ c = '\n' := fun e => h (by simp [e])
    show splitInclusiveNL (c :: (rest ++ '\n' :: t)) = ((c :: rest) ++ ['\n']) :: _
    conv_lhs => unfold splitInclusiveNL
    rw [if_neg hc, ih (fun hm => h (by simp [hm]))]
    rfl

/-- Stripping the line ending of `l ++ "\n"` recovers `l` when `l` does not
end in a carriage return. -/
lemma stripLineEnding_concat_nl (l : Line) (h : l.getLast? ≠ some '\r') :
    stripLineEnding (l ++ ['\n']) = l := by
  unfold stripLineEnding
  rw [List.getLast?_concat, if_pos rfl, List.dropLast_concat, if_neg h]

/-- Stripping the line ending of a newline-free line is the identity. -/
lemma stripLineEnding_no_nl (l : Line) (h : '\n' ∉ l) : stripLineEnding l = l := by
  unfold stripLineEnding
  rw [if_neg (show ¬ l.getLast? = some '\n' from
    fun e => h (List.mem_of_mem_getLast? (Option.mem_def.mpr e)))]

/-- C5 counterexample: the single empty line saves as the empty string,
which `str::lines` turns into NO lines — the round trip loses the line. -/
theorem claim5_counterexample :
    saveOpenRoundTrip [[]] = [] ∧ ([] : Content) ≠ [[]] := by decide

/-- C5 (amended): `save_as(p)` followed by reopening `p` reproduces the
line content exactly, provided no line contains `'\n'`, no line other than
the last ends in `'\r'`, and the last line is nonempty. -/
theorem claim5_save_open_round_trip (content : Content)
    (h1 : ∀ l ∈ content, '\n' ∉ l)
    (h2 : ∀ l ∈ content.dropLast, l.getLast? ≠ some '\r')
    (h3 : content.getLast? ≠ some []) :
    saveOpenRoundTrip content = content := by
  induction content with
  | nil => rfl
  | cons l rest ih =>
    rcases rest with _ | ⟨d, t⟩
    · have hne : l ≠ [] := by
        intro e
        apply h3
        rw [e]
        rfl
      show rustLines (joinLines [l]) = [l]
      have hj : joinLines [l] = l := rfl
      rw [hj]
      unfold rustLines
      rw [splitInclusiveNL_no_nl l (h1 l (by simp)) hne, List.map_cons, List.map_nil,
        stripLineEnding_no_nl l (h1 l (by simp))]
    · have hj : joinLines (l :: d :: t) = l ++ '\n' :: joinLines (d :: t) := rfl
      show rustLines (joinLines (l :: d :: t)) = l :: d :: t
      rw [hj]
      unfold rustLines
      rw [splitInclusiveNL_append _ _ (h1 l (by simp)), List.map_cons,
        stripLineEnding_concat_nl l (h2 l (by simp))]
      have ihr : rustLines (joinLines (d :: t)) = d :: t := by
        apply ih
        · intro x hx; exact h1 x (by simp [hx])
        · intro x hx
          apply h2 x
          rw [List.dropLast_cons_of_ne_nil (by simp)]
          exact List.mem_cons_of_mem _ hx
        · rw [← List.getLast?_cons_cons]
          exact h3
      unfold rustLines at ihr
      rw [ihr]

/-- C5 witness: a two-line buffer `["ab", "cd"]` satisfies the side
conditions and round-trips exactly. -/
theorem claim5_save_open_round_trip_witness :
    (∀ l ∈ [['a', 'b'], ['c', 'd']], '\n' ∉ l) ∧
    (∀ l ∈ ([['a', 'b'], ['c', 'd']] : Content).dropLast, l.getLast? ≠ some '\r') ∧
    (([['a', 'b'], ['c', 'd']] : Content).getLast? ≠ some []) ∧
    saveOpenRoundTrip [['a', 'b'], ['c', 'd']] = [['a', 'b'], ['c', 'd']] :=
  ⟨by decide, by decide, by decide,
    claim5_save_open_round_trip [['a', 'b'], ['c', 'd']]
      (by decide) (by decide) (by decide)⟩

/-! ## Undo/redo stack machinery (C3, C4, C10) -/

/-- The undo stack of `push_undo`, spelled out. -/
lemma push_undo_undo_stack (b : Buffer) :
    (b.push_undo).undo_stack =
      b.content :: (if b.undo_stack.length > 100 then b.undo_stack.dropLast
        else b.undo_stack) := rfl

/-- `push_undo` clears the redo stack. -/
lemma push_undo_redo_stack (b : Buffer) : (b.push_undo).redo_stack = [] := rfl

/-- Every mutator's stacks are exactly those of `push_undo`: the snapshot
is taken and the redo history destroyed before any content check. -/
lemma applyEdit_stacks (op : EditOp) (b : Buffer) :
    (applyEdit op b).undo_stack = (b.push_undo).undo_stack ∧
    (applyEdit op b).redo_stack = [] := by
  cases op <;>
    simp only [applyEdit, Buffer.insert_char, Buffer.insert_newline, Buffer.backspace,
      Buffer.delete_char, Buffer.delete_line] <;>
    (repeat' split) <;> simp [Buffer.push_undo]

/-- The contents seen just before each edit of a sequence, most recent
first. -/
def preContents : List EditOp → Buffer → List Content
  | [], _ => []
  | op :: rest, b => preContents rest (applyEdit op b) ++ [b.content]

/-- One pre-edit snapshot per edit. -/
lemma preContents_length (ops : List EditOp) : ∀ b,
    (preContents ops b).length = ops.length := by
  induction ops with
  | nil => intro b; rfl
  | cons op t ih =>
    intro b
    simp [preContents, ih]

/-- The oldest snapshot of a nonempty edit sequence is the starting
content. -/
lemma preContents_getLast? (ops : List EditOp) (b : Buffer) (h : ops ≠ []) :
    (preContents ops b).getLast? = some b.content := by
  cases ops with
  | nil => exact absurd rfl h
  | cons op t => exact List.getLast?_concat _

/-- After an edit sequence of length at most 101, the undo stack consists
of all the pre-edit snapshots (most recent first) on top of a suffix of
whatever was below them: eviction at the depth cap only ever removes
entries below the new snapshots. -/
lemma applyEdits_undo_stack : ∀ (ops : List EditOp) (b : Buffer)
    (news rest : List Content), b.undo_stack = news ++ rest →
    news.length + ops.length ≤ 101 →
    ∃ rest', (applyEdits ops b).undo_stack = (preContents ops b ++ news) ++ rest' := by
  intro ops
  induction ops with
  | nil =>
    intro b news rest hstack _
    exact ⟨rest, by simpa [applyEdits, preContents] using hstack⟩
  | cons op t ih =>
    intro b news rest hstack hlen
    have hstep : (applyEdit op b).undo_stack =
        b.content :: (if b.undo_stack.length > 100 then b.undo_stack.dropLast
          else b.undo_stack) :=
      (applyEdit_stacks op b).1.trans (push_undo_undo_stack b)
    have hnews : news.length ≤ 100 := by
      have := hlen
      simp only [List.length_cons] at this
      omega
    have hstep' : ∃ rest₂, (applyEdit op b).undo_stack = (b.content :: news) ++ rest₂ := by
      rw [hstep, hstack]
      by_cases hbig : (news ++ rest).length > 100
      · have hrest : rest ≠ [] := by
          intro e
          subst e
          simp only [List.append_nil, List.length_append] at hbig
          omega
        refine ⟨rest.dropLast, ?_⟩
        rw [if_pos hbig, List.dropLast_append]
        simp [List.isEmpty_iff, hrest]
      · exact ⟨rest, by rw [if_neg hbig]; rfl⟩
    obtain ⟨rest₂, hstep'⟩ := hstep'
    obtain ⟨rest', hrec⟩ := ih (applyEdit op b) (b.content :: news) rest₂ hstep'
      (by simp only [List.length_cons] at hlen ⊢; omega)
    refine ⟨rest', ?_⟩
    show (applyEdits t (applyEdit op b)).undo_stack = _
    rw [hrec]
    simp [preContents, List.append_assoc]

/-- A nonempty edit sequence leaves an empty redo stack. -/
lemma applyEdits_redo_stack : ∀ (ops : List EditOp) (b : Buffer), ops ≠ [] →
    (applyEdits ops b).redo_stack = [] := by
  intro ops
  induction ops with
  | nil => intro b h; exact absurd rfl h
  | cons op t ih =>
    intro b _
    show (applyEdits t (applyEdit op b)).redo_stack = []
    rcases eq_or_ne t [] with ht | ht
    · subst ht
      exact (applyEdit_stacks op b).2
    · exact ih (applyEdit op b) ht

/-- Running `undo` once for every entry of a prefix `news` of the undo
stack: the content becomes the oldest popped snapshot, the stack loses the
prefix, and the redo stack gains the popped contents. -/
lemma undoN_run : ∀ (news : List Content) (b : Buffer) (rest : List Content),
    b.undo_stack = news ++ rest →
    (undoN news.length b).content = news.getLast?.getD b.content ∧
    (undoN news.length b).undo_stack = rest ∧
    (undoN news.length b).redo_stack =
      ((b.content :: news).dropLast).reverse ++ b.redo_stack := by
  intro news
  induction news with
  | nil =>
    intro b rest hstack
    exact ⟨by simp [undoN], by simpa [undoN] using hstack, by simp [undoN]⟩
  | cons d tl ih =>
    intro b rest hstack
    have hb : b.undo =
        { b with content := d, undo_stack := tl ++ rest,
                 redo_stack := b.content :: b.redo_stack, modified := true } := by
      unfold Buffer.undo
      rw [hstack]
      rfl
    have hrec := ih b.undo rest (by rw [hb])
    simp only [hb] at hrec
    refine ⟨?_, ?_, ?_⟩
    · show (undoN tl.length b.undo).content = _
      rw [hb, List.getLast?_cons, Option.getD_some]
      exact hrec.1
    · show (undoN tl.length b.undo).undo_stack = _
      rw [hb]
      exact hrec.2.1
    · show (undoN tl.length b.undo).redo_stack = _
      rw [hb, hrec.2.2, List.dropLast_cons₂, List.reverse_cons, List.append_assoc]
      rfl

/-- Running `redo` once for every entry of a prefix `news` of the redo
stack (the mirror image of `undoN_run`; `redo` pushes back onto the undo
stack without any depth check). -/
lemma redoN_run : ∀ (news : List Content) (b : Buffer) (rest : List Content),
    b.redo_stack = news ++ rest →
    (redoN news.length b).content = news.getLast?.getD b.content ∧
    (redoN news.length b).redo_stack = rest ∧
    (redoN news.length b).undo_stack =
      ((b.content :: news).dropLast).reverse ++ b.undo_stack := by
  intro news
  induction news with
  | nil =>
    intro b rest hstack
    exact ⟨by simp [redoN], by simpa [redoN] using hstack, by simp [redoN]⟩
  | cons d tl ih =>
    intro b rest hstack
    have hb : b.redo =
        { b with content := d, redo_stack := tl ++ rest,
                 undo_stack := b.content :: b.undo_stack, modified := true } := by
      unfold Buffer.redo
      rw [hstack]
      rfl
    have hrec := ih b.redo rest (by rw [hb])
    simp only [hb] at hrec
    refine ⟨?_, ?_, ?_⟩
    · show (redoN tl.length b.redo).content = _
      rw [hb, List.getLast?_cons, Option.getD_some]
      exact hrec.1
    · show (redoN tl.length b.redo).redo_stack = _
      rw [hb]
      exact hrec.2.1
    · show (redoN tl.length b.redo).undo_stack = _
      rw [hb, hrec.2.2, List.dropLast_cons₂, List.reverse_cons, List.append_assoc]
      rfl

/-! ## C3 — undo/redo inverse law -/

set_option maxRecDepth 8192 in
/-- C3 counterexample: an edit sequence of length 102 (one insertion and
101 further mutator calls) overflows the capped undo stack, evicting the
oldest snapshot, so 102 undos do NOT restore the pre-sequence content.
The sequence is a panic-free Rust execution (`edits_safe`): every call is
an always-guarded `insert_char`/`delete_char`. -/
theorem claim3_counterexample :
    (EditOp.insertChar 'a' :: List.replicate 101 EditOp.deleteChar).length = 102 ∧
    edits_safe (EditOp.insertChar 'a' :: List.replicate 101 EditOp.deleteChar)
      (Buffer.new 1) = true ∧
    (undoN 102 (applyEdits (EditOp.insertChar 'a' :: List.replicate 101 EditOp.deleteChar)
      (Buffer.new 1))).content = [['a']] ∧
    (Buffer.new 1).content = [[]] ∧ ([['a']] : Content) ≠ [[]] := by
  refine ⟨by decide, by decide, by decide, by decide, by decide⟩

/-- C3 (amended): for any buffer and any edit sequence of length `n ≤ 101`
that executes without panicking (`edits_safe`: every `backspace` /
`delete_line` call finds its cursor row in bounds — the Rust program
aborts otherwise and never reaches the undos), `n` undos restore the
pre-sequence content and `n` further redos restore the post-sequence
content. -/
theorem claim3_undo_redo_inverse (b : Buffer) (ops : List EditOp)
    (h : ops.length ≤ 101) (hsafe : edits_safe ops b = true) :
    (undoN ops.length (applyEdits ops b)).content = b.content ∧
    (redoN ops.length (undoN ops.length (applyEdits ops b))).content =
      (applyEdits ops b).content := by
  rcases eq_or_ne ops [] with he | he
  · subst he
    exact ⟨rfl, rfl⟩
  · obtain ⟨rest', hstack⟩ := applyEdits_undo_stack ops b [] b.undo_stack
      (by simp) (by simpa using h)
    have hstack' : (applyEdits ops b).undo_stack = preContents ops b ++ rest' := by
      simpa using hstack
    have hlen := preContents_length ops b
    have hu := undoN_run (preContents ops b) (applyEdits ops b) rest' hstack'
    rw [hlen] at hu
    have hcontent : (undoN ops.length (applyEdits ops b)).content = b.content := by
      rw [hu.1, preContents_getLast? ops b he, Option.getD_some]
    refine ⟨hcontent, ?_⟩
    have hne : preContents ops b ≠ [] := by
      intro e
      apply he
      rw [e] at hlen
      exact List.length_eq_zero.mp hlen.symm
    obtain ⟨x, xs, hx⟩ := List.exists_cons_of_ne_nil hne
    have hredo : (undoN ops.length (applyEdits ops b)).redo_stack =
        (((applyEdits ops b).content :: preContents ops b).dropLast).reverse ++ [] := by
      rw [hu.2.2, applyEdits_redo_stack ops b he]
    have hlen₂ : ((((applyEdits ops b).content :: preContents ops b).dropLast).reverse).length
        = ops.length := by
      rw [List.length_reverse, List.length_dropLast, List.length_cons, hlen]
      omega
    have hr := redoN_run ((((applyEdits ops b).content :: preContents ops b).dropLast).reverse)
      (undoN ops.length (applyEdits ops b)) [] hredo
    rw [hlen₂] at hr
    have hgl : ((((applyEdits ops b).content :: preContents ops b).dropLast).reverse).getLast?
        = some (applyEdits ops b).content := by
      rw [hx, List.dropLast_cons₂, List.reverse_cons, List.getLast?_concat]
    rw [hr.1, hgl, Option.getD_some]

/-- C3 witness: a single insertion on a fresh buffer (a panic-free
sequence), one undo, one redo. -/
theorem claim3_undo_redo_inverse_witness :
    ([EditOp.insertChar 'X'].length ≤ 101) ∧
    edits_safe [EditOp.insertChar 'X'] (Buffer.new 1) = true ∧
    (undoN [EditOp.insertChar 'X'].length
      (applyEdits [EditOp.insertChar 'X'] (Buffer.new 1))).content
      = (Buffer.new 1).content ∧
    (redoN [EditOp.insertChar 'X'].length (undoN [EditOp.insertChar 'X'].length
      (applyEdits [EditOp.insertChar 'X'] (Buffer.new 1)))).content
      = (applyEdits [EditOp.insertChar 'X'] (Buffer.new 1)).content :=
  ⟨by decide, by decide,
    (claim3_undo_redo_inverse (Buffer.new 1) [EditOp.insertChar 'X']
      (by decide) (by decide)).1,
    (claim3_undo_redo_inverse (Buffer.new 1) [EditOp.insertChar 'X']
      (by decide) (by decide)).2⟩

/-! ## C4 — undo stack depth bound -/

/-- The length of the undo stack after `push_undo`. -/
lemma push_undo_length (b : Buffer) :
    (b.push_undo).undo_stack.length =
      if b.undo_stack.length > 100 then b.undo_stack.length
      else b.undo_stack.length + 1 := by
  rw [push_undo_undo_stack]
  split
  · next hbig =>
    rw [List.length_cons, List.length_dropLast]
    omega
  · next hbig =>
    rw [List.length_cons]

/-- Depth at most 101 is preserved by any mutator sequence. -/
lemma applyEdits_depth : ∀ (ops : List EditOp) (b : Buffer),
    b.undo_stack.length ≤ 101 → (applyEdits ops b).undo_stack.length ≤ 101 := by
  intro ops
  induction ops with
  | nil => intro b h; exact h
  | cons op t ih =>
    intro b h
    show (applyEdits t (applyEdit op b)).undo_stack.length ≤ 101
    apply ih
    rw [(applyEdit_stacks op b).1, push_undo_length]
    split <;> omega

set_option maxRecDepth 8192 in
/-- C4 counterexample: after 101 mutator calls on a fresh buffer the undo
stack holds 101 snapshots, exceeding the claimed bound of 100. -/
theorem claim4_counterexample :
    (applyEdits (List.replicate 101 (EditOp.insertChar 'a'))
      (Buffer.new 1)).undo_stack.length = 101 ∧ ¬ (101 ≤ 100) := by
  decide

/-- C4 (amended): the undo stack depth never exceeds 101 under any mutator
sequence, and a mutator fired at depth 101 evicts the oldest snapshot while
pushing the new one. -/
theorem claim4_undo_depth_bound (b : Buffer) (ops : List EditOp)
    (h : b.undo_stack.length ≤ 101) :
    (applyEdits ops b).undo_stack.length ≤ 101 ∧
    (b.undo_stack.length = 101 → ∀ op : EditOp,
      (applyEdit op b).undo_stack = b.content :: b.undo_stack.dropLast) := by
  refine ⟨applyEdits_depth ops b h, ?_⟩
  intro h101 op
  rw [(applyEdit_stacks op b).1, push_undo_undo_stack, if_pos (by omega)]

/-- C4 witness: a fresh buffer and a single insertion. -/
theorem claim4_undo_depth_bound_witness :
    ((Buffer.new 1).undo_stack.length ≤ 101) ∧
    (applyEdits [EditOp.insertChar 'a'] (Buffer.new 1)).undo_stack.length ≤ 101 :=
  ⟨by decide, (claim4_undo_depth_bound (Buffer.new 1) [EditOp.insertChar 'a'] (by decide)).1⟩

/-! ## C10 — unconditional snapshot and redo clearing -/

set_option maxRecDepth 8192 in
/-- C10 counterexample: at undo depth 101 (reachable by 101 insertions) a
content-preserving `delete_char` still pushes a snapshot but the stack does
NOT grow by one — the oldest snapshot is evicted and the depth stays 101. -/
theorem claim10_counterexample :
    ((applyEdits (List.replicate 101 (EditOp.insertChar 'a'))
        (Buffer.new 1)).delete_char).content
      = (applyEdits (List.replicate 101 (EditOp.insertChar 'a'))
        (Buffer.new 1)).content ∧
    (applyEdits (List.replicate 101 (EditOp.insertChar 'a'))
      (Buffer.new 1)).undo_stack.length = 101 ∧
    ((applyEdits (List.replicate 101 (EditOp.insertChar 'a'))
        (Buffer.new 1)).delete_char).undo_stack.length = 101 := by
  refine ⟨?_, ?_, ?_⟩ <;> decide

/-- C10 (amended): every mutator unconditionally empties the redo stack and
pushes the pre-call content as a new top snapshot (the stack grows by one
below depth 101, while at depth 101 the oldest snapshot is evicted and the
depth is unchanged); in particular `backspace` at (0,0) and `delete_char`
at the end of the last line leave the content untouched yet still do so. -/
theorem claim10_unconditional_snapshot (b : Buffer) (op : EditOp) :
    (applyEdit op b).redo_stack = [] ∧
    (applyEdit op b).undo_stack.head? = some b.content ∧
    (applyEdit op b).undo_stack.length =
      (if b.undo_stack.length > 100 then b.undo_stack.length
       else b.undo_stack.length + 1) ∧
    (b.cursor.position.col = 0 ∧ b.cursor.position.row = 0 →
      (b.backspace).content = b.content) ∧
    (b.cursor.position.row + 1 = b.content.length ∧
      (b.content.getD b.cursor.position.row []).length ≤ b.cursor.position.col →
      (b.delete_char).content = b.content) := by
  refine ⟨(applyEdit_stacks op b).2, ?_, ?_, ?_, ?_⟩
  · rw [(applyEdit_stacks op b).1, push_undo_undo_stack]
    rfl
  · rw [(applyEdit_stacks op b).1, push_undo_length]
  · rintro ⟨hc, hr⟩
    unfold Buffer.backspace
    simp [Buffer.push_undo, hc, hr]
  · rintro ⟨hrow, hcol⟩
    unfold Buffer.delete_char
    simp only [Buffer.push_undo]
    rw [if_pos (show b.cursor.position.row < b.content.length by omega)]
    rw [if_neg (show ¬ b.cursor.position.col <
      (b.content.getD b.cursor.position.row []).length by omega)]
    rw [if_neg (show ¬ b.cursor.position.row + 1 < b.content.length by omega)]

/-- C10 witness: a fresh buffer (content `[""]`, cursor (0,0)) satisfies
both no-op side conditions; a `delete_char` there changes nothing but still
clears redo and pushes a snapshot. -/
theorem claim10_unconditional_snapshot_witness :
    ((Buffer.new 1).delete_char).redo_stack = [] ∧
    ((Buffer.new 1).delete_char).undo_stack.head? = some (Buffer.new 1).content ∧
    ((Buffer.new 1).backspace).content = (Buffer.new 1).content ∧
    ((Buffer.new 1).delete_char).content = (Buffer.new 1).content :=
  ⟨(claim10_unconditional_snapshot (Buffer.new 1) .deleteChar).1,
    (claim10_unconditional_snapshot (Buffer.new 1) .deleteChar).2.1,
    (claim10_unconditional_snapshot (Buffer.new 1) .deleteChar).2.2.2.1 ⟨rfl, rfl⟩,
    (claim10_unconditional_snapshot (Buffer.new 1) .deleteChar).2.2.2.2 ⟨rfl, by decide⟩⟩

/-! ## C8 — forward search scan order -/

/-- A line all of whose characters are single-byte (ASCII range). -/
abbrev asciiLine (l : Line) : Prop := ∀ c ∈ l, charUtf8Size c = 1

/-- The pattern occurs at position `p` (codepoint column) of the content. -/
def occursAt (pat : Line) (content : Content) (p : Position) : Bool :=
  pat.isPrefixOf ((content.getD p.row []).drop p.col)

/-- All candidate positions of row `r` from column `s` to the end of the
line, in order. -/
def rowCandidates (content : Content) (r s : Nat) : List Position :=
  (List.range (Cursor.lineLen content r + 1 - s)).map (fun i => ⟨r, s + i⟩)

/-- The spec's scan order for a forward search from (startRow, startCol):
row startRow from startCol (clamped) to the end of the buffer, then the
rows before startRow from the top, each whole row. -/
def scanPositions (content : Content) (startRow startCol : Nat) : List Position :=
  ((List.range' startRow (content.length - startRow)).flatMap (fun r =>
    rowCandidates content r
      (if r = startRow then min startCol (Cursor.lineLen content r) else 0)))
  ++ ((List.range' 0 (min startRow content.length)).flatMap (fun r =>
    rowCandidates content r 0))

/-- A nonempty pattern never occurs in the empty line. -/
lemma findSubChars_nil (pat : Line) (h : pat ≠ []) : findSubChars [] pat = none := by
  cases pat with
  | nil => exact absurd rfl h
  | cons c t => rfl

/-- On an ASCII line, byte length and codepoint length agree. -/
lemma byteLen_ascii (l : Line) (h : asciiLine l) : byteLen l = l.length := by
  induction l with
  | nil => rfl
  | cons c t ih =>
    have hc : charUtf8Size c = 1 := h c (by simp)
    have ht := ih (fun x hx => h x (by simp [hx]))
    simp [byteLen] at ht ⊢
    omega

/-- On an ASCII line, dropping `k` bytes is dropping `k` characters. -/
lemma byteDrop_ascii (l : Line) (h : asciiLine l) :
    ∀ k, k ≤ l.length → byteDrop l k = some (l.drop k) := by
  induction l with
  | nil =>
    intro k hk
    simp only [List.length_nil, Nat.le_zero] at hk
    subst hk
    rfl
  | cons c t ih =>
    intro k hk
    cases k with
    | zero => rfl
    | succ k' =>
      have hc : charUtf8Size c = 1 := h c (by simp)
      have ht := ih (fun x hx => h x (by simp [hx])) k' (by
        simp at hk
        omega)
      simp [byteDrop, hc, ht]

/-- On an ASCII haystack, the byte offset returned by `str::find` is the
codepoint offset. -/
lemma findSubBytes_ascii (hay : Line) (pat : Line) (h : asciiLine hay) :
    findSubBytes hay pat = findSubChars hay pat := by
  induction hay with
  | nil => rfl
  | cons c t ih =>
    have hc : charUtf8Size c = 1 := h c (by simp)
    have ht := ih (fun x hx => h x (by simp [hx]))
    unfold findSubBytes findSubChars
    by_cases hp : pat.isPrefixOf (c :: t) = true
    · rw [if_pos hp, if_pos hp]
    · rw [if_neg hp, if_neg hp]
      show (findSubBytes t pat).map (fun x => charUtf8Size c + x)
        = (findSubChars t pat).map (fun x => x + 1)
      rw [ht, hc]
      cases findSubChars t pat <;> simp [Nat.add_comm]

/-- `findSubChars` computes the FIRST offset at which the pattern is a
prefix of the rest of the haystack. -/
lemma findSubChars_eq_find? (hay pat : Line) :
    findSubChars hay pat =
      (List.range (hay.length + 1)).find? (fun i => pat.isPrefixOf (hay.drop i)) := by
  induction hay with
  | nil =>
    unfold findSubChars
    by_cases hp : pat.isPrefixOf [] = true
    · simp [hp, List.range_succ, List.find?]
    · simp [hp, List.range_succ, List.find?]
  | cons c t ih =>
    by_cases hp : pat.isPrefixOf (c :: t) = true
    · have hL : findSubChars (c :: t) pat = some 0 := by
        conv_lhs => unfold findSubChars
        rw [if_pos hp]
      have hp0 : List.isPrefixOf pat (List.drop 0 (c :: t)) = true := by
        rw [List.drop_zero]
        exact hp
      rw [hL, List.range_succ_eq_map, List.find?_cons, hp0]
    · have hL : findSubChars (c :: t) pat = (findSubChars t pat).map (fun x => x + 1) := by
        conv_lhs => unfold findSubChars
        rw [if_neg hp]
      have hp0 : List.isPrefixOf pat (List.drop 0 (c :: t)) = false := by
        rw [List.drop_zero]
        exact Bool.eq_false_iff.mpr hp
      rw [hL, List.range_succ_eq_map, List.find?_cons, hp0, List.length_cons,
        List.find?_map, ih]
      have hcomp : ((fun i => pat.isPrefixOf ((c :: t).drop i)) ∘ Nat.succ)
          = fun i => pat.isPrefixOf (t.drop i) := rfl
      rw [hcomp]

/-- The first hit among the candidates of one row, from column `s` on, is
the shifted result of the substring search on the dropped line. -/
lemma rowCandidates_find? (pat : Line) (content : Content) (r s : Nat)
    (hs : s ≤ Cursor.lineLen content r) :
    (rowCandidates content r s).find? (occursAt pat content)
      = (findSubChars ((content.getD r []).drop s) pat).map
          (fun p => (⟨r, s + p⟩ : Position)) := by
  unfold rowCandidates
  rw [List.find?_map, findSubChars_eq_find?]
  have hN : Cursor.lineLen content r + 1 - s = ((content.getD r []).drop s).length + 1 := by
    simp only [Cursor.lineLen] at hs ⊢
    rw [List.length_drop]
    omega
  rw [hN]
  have hpred : (occursAt pat content ∘ fun i => (⟨r, s + i⟩ : Position))
      = (fun i => pat.isPrefixOf (((content.getD r []).drop s).drop i)) := by
    funext i
    simp [occursAt, Function.comp, List.drop_drop]
  rw [hpred]

/-- One row of the first search loop, on an ASCII line: the byte arithmetic
collapses to codepoint arithmetic and no panic is possible. -/
lemma searchFromRow_cons (pat line : Line) (rest : List Line)
    (rowIdx startRow startCol : Nat) (hline : asciiLine line) :
    searchFromRow pat (line :: rest) rowIdx startRow startCol =
      match findSubChars
          (line.drop (min (if rowIdx = startRow then startCol else 0) line.length)) pat with
      | some p => some (some ⟨rowIdx, (if rowIdx = startRow then startCol else 0) + p⟩)
      | none => searchFromRow pat rest (rowIdx + 1) startRow startCol := by
  have hbl : byteLen line = line.length := byteLen_ascii _ hline
  have hdrop : byteDrop line (min (if rowIdx = startRow then startCol else 0) (byteLen line))
      = some (line.drop (min (if rowIdx = startRow then startCol else 0) line.length)) := by
    rw [hbl]
    exact byteDrop_ascii line hline _ (Nat.min_le_right _ _)
  have hfb := findSubBytes_ascii
    (line.drop (min (if rowIdx = startRow then startCol else 0) line.length)) pat
    (fun x hx => hline x (List.mem_of_mem_drop hx))
  show (match byteDrop line
      (min (if rowIdx = startRow then startCol else 0) (byteLen line)) with
    | none => none
    | some sliced =>
      match findSubBytes sliced pat with
      | some p => some (some (⟨rowIdx,
          (if rowIdx = startRow then startCol else 0) + p⟩ : Position))
      | none => searchFromRow pat rest (rowIdx + 1) startRow startCol) = _
  rw [hdrop]
  show (match findSubBytes
      (line.drop (min (if rowIdx = startRow then startCol else 0) line.length)) pat with
    | some p => some (some (⟨rowIdx,
        (if rowIdx = startRow then startCol else 0) + p⟩ : Position))
    | none => searchFromRow pat rest (rowIdx + 1) startRow startCol) = _
  rw [hfb]

/-- First phase of the search, against the spec's scan order: rows from
`rowIdx` (at or past the starting row) to the bottom of the buffer. -/
lemma searchFromRow_eq (pat : Line) (hpat : pat ≠ []) (content : Content)
    (hascii : ∀ l ∈ content, asciiLine l) (startRow startCol : Nat) :
    ∀ (k rowIdx : Nat), content.length - rowIdx = k → startRow ≤ rowIdx →
    searchFromRow pat (content.drop rowIdx) rowIdx startRow startCol =
      some (((List.range' rowIdx k).flatMap (fun r =>
        rowCandidates content r
          (if r = startRow then min startCol (Cursor.lineLen content r) else 0))).find?
        (occursAt pat content)) := by
  intro k
  induction k with
  | zero =>
    intro rowIdx hk _
    rw [List.drop_eq_nil_of_le (by omega)]
    rfl
  | succ k' ih =>
    intro rowIdx hk hge
    have hlt : rowIdx < content.length := by omega
    have hline_ascii : asciiLine content[rowIdx] := hascii _ (List.getElem_mem hlt)
    have hgetD : content.getD rowIdx [] = content[rowIdx] :=
      List.getD_eq_getElem content [] hlt
    have hlineLen : Cursor.lineLen content rowIdx = content[rowIdx].length := by
      rw [Cursor.lineLen, hgetD]
    have hsR : (if rowIdx = startRow then min startCol (Cursor.lineLen content rowIdx)
        else 0) = min (if rowIdx = startRow then startCol else 0) content[rowIdx].length := by
      rw [hlineLen]
      split <;> simp
    rw [List.drop_eq_getElem_cons hlt,
      searchFromRow_cons pat content[rowIdx] _ rowIdx startRow startCol hline_ascii,
      List.range'_succ, List.flatMap_cons, List.find?_append,
      rowCandidates_find? pat content rowIdx _
        (by rw [hsR, hlineLen]; exact Nat.min_le_right _ _),
      hsR, hgetD]
    cases hf : findSubChars
        (content[rowIdx].drop (min (if rowIdx = startRow then startCol else 0)
          content[rowIdx].length)) pat with
    | some p =>
      have hss : (if rowIdx = startRow then startCol else 0) ≤ content[rowIdx].length := by
        by_contra hgt
        rw [Nat.min_eq_right (by omega), List.drop_length, findSubChars_nil pat hpat] at hf
        exact Option.noConfusion hf
      rw [Option.map_some', Option.or_some, Nat.min_eq_left hss]
    | none =>
      rw [Option.map_none', Option.none_or]
      exact ih (rowIdx + 1) (by omega) (by omega)

/-- One row of the wrap loop, on an ASCII line. -/
lemma searchWrapRows_cons (pat line : Line) (rest : List Line) (rowIdx startRow : Nat)
    (hline : asciiLine line) :
    searchWrapRows pat (line :: rest) rowIdx startRow =
      if rowIdx ≥ startRow then none
      else
        match findSubChars line pat with
        | some p => some ⟨rowIdx, p⟩
        | none => searchWrapRows pat rest (rowIdx + 1) startRow := by
  show (if rowIdx ≥ startRow then none
    else
      match findSubBytes line pat with
      | some p => some (⟨rowIdx, p⟩ : Position)
      | none => searchWrapRows pat rest (rowIdx + 1) startRow) = _
  rw [findSubBytes_ascii line pat hline]

/-- Second (wrap) phase of the search, against the spec's scan order: rows
from `rowIdx` up to (excluding) the starting row, whole rows. -/
lemma searchWrapRows_eq (pat : Line) (hpat : pat ≠ []) (content : Content)
    (hascii : ∀ l ∈ content, asciiLine l) (startRow : Nat) :
    ∀ (k rowIdx : Nat), content.length - rowIdx = k →
    searchWrapRows pat (content.drop rowIdx) rowIdx startRow =
      ((List.range' rowIdx (min startRow content.length - rowIdx)).flatMap
        (fun r => rowCandidates content r 0)).find? (occursAt pat content) := by
  intro k
  induction k with
  | zero =>
    intro rowIdx hk
    rw [List.drop_eq_nil_of_le (by omega),
      show min startRow content.length - rowIdx = 0 by omega]
    rfl
  | succ k' ih =>
    intro rowIdx hk
    have hlt : rowIdx < content.length := by omega
    have hline_ascii : asciiLine content[rowIdx] := hascii _ (List.getElem_mem hlt)
    have hgetD : content.getD rowIdx [] = content[rowIdx] :=
      List.getD_eq_getElem content [] hlt
    rw [List.drop_eq_getElem_cons hlt,
      searchWrapRows_cons pat content[rowIdx] _ rowIdx startRow hline_ascii]
    by_cases hbreak : startRow ≤ rowIdx
    · rw [if_pos hbreak, show min startRow content.length - rowIdx = 0 by omega]
      rfl
    · rw [if_neg hbreak,
        show min startRow content.length - rowIdx
          = (min startRow content.length - (rowIdx + 1)) + 1 by omega,
        List.range'_succ, List.flatMap_cons, List.find?_append,
        rowCandidates_find? pat content rowIdx 0 (Nat.zero_le _), hgetD, List.drop_zero]
      cases hf : findSubChars content[rowIdx] pat with
      | some p =>
        rw [Option.map_some', Option.or_some, Nat.zero_add]
      | none =>
        rw [Option.map_none', Option.none_or]
        exact ih (rowIdx + 1) (by omega)

/-- C8 counterexample: on the single line `"aé b"` with the cursor at the
invariant-satisfying position (0,1), a forward search for the pattern
`"b"` — which occurs at (0,3) — panics: the slice at byte offset
`col + 1 = 2` falls inside the two-byte encoding of `'é'`.  The cursor is
not moved to the occurrence; Rust aborts instead. -/
theorem claim8_counterexample :
    search_in_buffer ['b'] ⟨1, [['a', 'é', ' ', 'b']], ⟨⟨0, 1⟩, 1⟩, false, [], []⟩
      = none ∧
    occursAt ['b'] [['a', 'é', ' ', 'b']] ⟨0, 3⟩ = true := by
  decide

/-- C8 (amended): for a NONEMPTY pattern and a buffer whose lines are all
ASCII, the forward search returns (without panic) the buffer whose cursor
sits at the first occurrence in the spec's scan order — one column past the
cursor to the end of the buffer, then wrapping over the rows before the
starting row — and leaves the buffer unchanged when there is none. -/
theorem claim8_search_scan_order (b : Buffer) (pat : Line) (hpat : pat ≠ [])
    (hascii : ∀ l ∈ b.content, asciiLine l) :
    search_in_buffer pat b =
      some (match (scanPositions b.content b.cursor.position.row
          (b.cursor.position.col + 1)).find? (occursAt pat b.content) with
        | some p => { b with cursor := b.cursor.move_to_position p }
        | none => b) := by
  unfold search_in_buffer scanPositions
  rw [searchFromRow_eq pat hpat b.content hascii b.cursor.position.row
    (b.cursor.position.col + 1) (b.content.length - b.cursor.position.row)
    b.cursor.position.row rfl (Nat.le_refl _), List.find?_append]
  cases hf : ((List.range' b.cursor.position.row
      (b.content.length - b.cursor.position.row)).flatMap (fun r =>
        rowCandidates b.content r
          (if r = b.cursor.position.row then
            min (b.cursor.position.col + 1) (Cursor.lineLen b.content r) else 0))).find?
      (occursAt pat b.content) with
  | some p =>
    rw [Option.or_some]
  | none =>
    rw [Option.none_or]
    have hw := searchWrapRows_eq pat hpat b.content hascii b.cursor.position.row
      b.content.length 0 rfl
    rw [List.drop_zero] at hw
    simp only [Nat.sub_zero] at hw
    rw [hw]
    cases hwf : ((List.range' 0 (min b.cursor.position.row b.content.length)).flatMap
        (fun r => rowCandidates b.content r 0)).find? (occursAt pat b.content) <;> simp

/-- C8 witness: the spec's wrap scenario — buffer `["foo","bar","baz"]`,
pattern `"foo"`, search started at (2,0) wraps and lands at (0,0). -/
theorem claim8_search_scan_order_witness :
    (['f', 'o', 'o'] : Line) ≠ [] ∧
    (∀ l ∈ ([['f', 'o', 'o'], ['b', 'a', 'r'], ['b', 'a', 'z']] : Content), asciiLine l) ∧
    search_in_buffer ['f', 'o', 'o']
      ⟨1, [['f', 'o', 'o'], ['b', 'a', 'r'], ['b', 'a', 'z']], ⟨⟨2, 0⟩, 0⟩, false, [], []⟩
      = some ⟨1, [['f', 'o', 'o'], ['b', 'a', 'r'], ['b', 'a', 'z']], ⟨⟨0, 0⟩, 0⟩,
          false, [], []⟩ :=
  ⟨by decide, by decide,
    (claim8_search_scan_order
      ⟨1, [['f', 'o', 'o'], ['b', 'a', 'r'], ['b', 'a', 'z']], ⟨⟨2, 0⟩, 0⟩, false, [], []⟩
      ['f', 'o', 'o'] (by decide) (by decide)).trans (by decide)⟩

/-! ## C9 — sticky column for vertical motion -/

/-- C9: `move_down`/`move_up` change the row by one when in range and set
the column to `min desired_col (length of the target line)` without
touching `desired_col`; and on three concrete lines of lengths 10/3/8,
going down from (0,5) clamps to column 3 and going down again restores
column 5. -/
theorem claim9_sticky_column :
    (∀ (content : Content) (c : Cursor),
      c.move_down content =
        if c.position.row + 1 < content.length then
          ⟨⟨c.position.row + 1,
            min c.desired_col (content.getD (c.position.row + 1) []).length⟩,
            c.desired_col⟩
        else c) ∧
    (∀ (content : Content) (c : Cursor),
      c.move_up content =
        if c.position.row > 0 then
          ⟨⟨c.position.row - 1,
            min c.desired_col (content.getD (c.position.row - 1) []).length⟩,
            c.desired_col⟩
        else c) ∧
    ((⟨⟨0, 5⟩, 5⟩ : Cursor).move_down
        [List.replicate 10 'a', List.replicate 3 'b', List.replicate 8 'c']
      = ⟨⟨1, 3⟩, 5⟩) ∧
    (((⟨⟨0, 5⟩, 5⟩ : Cursor).move_down
        [List.replicate 10 'a', List.replicate 3 'b', List.replicate 8 'c']).move_down
        [List.replicate 10 'a', List.replicate 3 'b', List.replicate 8 'c']
      = ⟨⟨2, 5⟩, 5⟩) := by
  refine ⟨?_, ?_, by decide, by decide⟩
  · intro content c
    unfold Cursor.move_down Cursor.clamp_column
    split
    · cases h : content.get? (c.position.row + 1) with
      | none =>
        rw [List.get?_eq_getElem?] at h
        simp [List.getD_eq_getElem?_getD, h]
      | some line =>
        rw [List.get?_eq_getElem?] at h
        simp [List.getD_eq_getElem?_getD, h]
    · rfl
  · intro content c
    unfold Cursor.move_up Cursor.clamp_column
    split
    · cases h : content.get? (c.position.row - 1) with
      | none =>
        rw [List.get?_eq_getElem?] at h
        simp [List.getD_eq_getElem?_getD, h]
      | some line =>
        rw [List.get?_eq_getElem?] at h
        simp [List.getD_eq_getElem?_getD, h]
    · rfl

end ZenVim
